import Mathlib

/-!
Shallow embedding of `process_release_data.py` (Slicer/SlicerTestingData).

Strings are modelled as `List Char` (Python `str` is a sequence of Unicode
code points, and Lean `Char` is a Unicode scalar value).  A CSV record is
modelled exactly as in the source: a variable-length list of string fields
(`fields = line.rstrip().split(";")`), indexed by the `COLUMN_*` constants.
File-system and network effects are modelled by explicit inputs (oracles for
cache hits and fetch successes) and by an action trace for the upload path.
-/

abbrev PyStr := List Char

abbrev Record := List PyStr

/-- Column constants from the top of `process_release_data.py`. -/
def COLUMN_CHECKSUM : Nat := 0

def COLUMN_FILENAME : Nat := 1

def COLUMN_FILEDATE : Nat := 2

def COLUMN_LOCAL_FILENAME : Nat := 3

/-- The fixed fallback date string (`DEFAULT_FILE_DATE_UTC_STRING`). -/
def DEFAULT_FILE_DATE_UTC_STRING : PyStr := "2020-01-01T12:00:00.0Z".toList

/-- Characters stripped by Python `str.rstrip()` with no argument, i.e. the
characters for which `str.isspace()` holds. -/
def isPySpace (c : Char) : Bool :=
  c = ' ' || c = '\t' || c = '\n' || c = '\r' || c = '\u000B' || c = '\u000C' ||
  c = '\u001C' || c = '\u001D' || c = '\u001E' || c = '\u001F' ||
  c = '\u0085' || c = ' ' || c = ' ' ||
  (' ' ≤ c && c ≤ ' ') ||
  c = ' ' || c = ' ' || c = ' ' || c = ' ' || c = '　'

/-- Python `line.rstrip()`: drop trailing whitespace characters. -/
def rstrip (l : List Char) : List Char :=
  (l.reverse.dropWhile isPySpace).reverse

/-- Python `s.split(sep)` for a one-character separator: splits at every
occurrence of the separator; the empty string yields `[""]`. -/
def splitOn (sep : Char) : List Char → List (List Char)
  | [] => [[]]
  | c :: rest =>
    if c = sep then
      [] :: splitOn sep rest
    else
      match splitOn sep rest with
      | [] => [[c]]
      | f :: fs => (c :: f) :: fs

/-- Python `sep.join(fields)` for a one-character separator. -/
def joinSep (sep : Char) : List (List Char) → List Char
  | [] => []
  | [f] => f
  | f :: fs => f ++ sep :: joinSep sep fs

/-- The lines produced by iterating over an open text file whose content is
`t`: segments terminated by a newline, plus a final unterminated segment if
the content does not end in a newline.  (The terminators themselves are
immaterial here because every consumer applies `rstrip` first, so each line
is represented without its terminator.) -/
def pyLines (t : List Char) : List (List Char) :=
  let ps := splitOn '\n' t
  if ps.getLast? = some [] then ps.dropLast else ps

/-- One iteration of the loop body of `read_fileindex_csv`:
`fields = line.rstrip().split(";")`, and if the date column is missing a
single empty field is appended. -/
def parseLine (l : List Char) : Record :=
  let fields := splitOn ';' (rstrip l)
  if fields.length ≤ COLUMN_FILEDATE then fields ++ [[]] else fields

/-- `read_fileindex_csv`, as a function from the file content to the record
list. -/
def read_fileindex_csv (t : List Char) : List Record :=
  (pyLines t).map parseLine

/-- One iteration of the loop body of `write_fileindex_csv`: always write the
checksum and filename columns, write the date column only when present, and
terminate the line with a newline. -/
def encodeLine (r : Record) : List Char :=
  let fields :=
    [r.getD COLUMN_CHECKSUM [], r.getD COLUMN_FILENAME []] ++
      (if COLUMN_FILEDATE < r.length then [r.getD COLUMN_FILEDATE []] else [])
  joinSep ';' fields ++ ['\n']

/-- `write_fileindex_csv`, as a function from the record list to the file
content. -/
def write_fileindex_csv (fi : List Record) : List Char :=
  (fi.map encodeLine).flatten

/-! ### The markdown rendering (`write_fileindex_md`, list layout)

Only the `list` layout is exercised by `download` (with local names) and
`upload` (without); the function below renders one item of it. -/

/-- One item of the `list`-layout markdown rendering. -/
def mdListItem (includeLocal : Bool) (repo halgo : PyStr) (r : Record) : List Char :=
  let checksum := r.getD COLUMN_CHECKSUM []
  let filename := r.getD COLUMN_FILENAME []
  let filedate := if COLUMN_FILEDATE < r.length then r.getD COLUMN_FILEDATE [] else []
  let localName := if COLUMN_LOCAL_FILENAME < r.length then r.getD COLUMN_LOCAL_FILENAME [] else []
  "- [".toList ++ filename ++ "](https://github.com/".toList ++ repo ++
      "/releases/download/".toList ++ halgo ++ "/".toList ++ checksum ++ ")\n".toList ++
    (if includeLocal then "  - LocalFileName: ".toList ++ localName ++ "\n".toList else []) ++
    (if filedate.isEmpty then [] else "  - FileDate: ".toList ++ filedate ++ "\n".toList) ++
    "  - ".toList ++ halgo ++ ": ".toList ++ checksum ++ "\n".toList

/-- `write_fileindex_md` with the default `list` layout, as a function from
the record list to the file content. -/
def write_fileindex_md (includeLocal : Bool) (repo halgo : PyStr) (fi : List Record) : List Char :=
  (fi.map (mdListItem includeLocal repo halgo)).flatten

/-! ### Dates: `date_from_utc_string`

`date_from_utc_string` calls `datetime.datetime.strptime` with the format
`"%Y-%m-%dT%H:%M:%S.%f+00:00"` and, if that raises `ValueError`, with
`"%Y-%m-%dT%H:%M:%S.%fZ"`.  CPython's `_strptime` compiles each directive to
a regular expression fragment (`%Y` four digits; `%m` `1[0-2]|0[1-9]|[1-9]`;
`%d` `3[01]|[12]\d|0[1-9]|[1-9]`; `%H` `2[0-3]|[0-1]\d|\d`; `%M` and `%S`
`[0-5]\d|\d`; `%f` `[0-9]{1,6}`, right-padded with zeros to microseconds),
requires the whole string to be consumed, and the `datetime` constructor
additionally validates the day against the month length and requires
`year >= 1`.  Failure is modelled as `none` (a raised `ValueError`). -/

structure PyDateTime where
  year : Nat
  month : Nat
  day : Nat
  hour : Nat
  minute : Nat
  second : Nat
  microsecond : Nat
deriving DecidableEq, Repr

/-- Digit list to number, most significant digit first. -/
def digitsToNat (ds : List Char) : Nat :=
  ds.foldl (fun n c => n * 10 + (c.toNat - '0'.toNat)) 0

/-- Consume one expected literal character. -/
def expectChar (c : Char) : List Char → Option (List Char)
  | [] => none
  | x :: rest => if x = c then some rest else none

/-- Consume an expected literal string. -/
def expectLit : List Char → List Char → Option (List Char)
  | [], s => some s
  | c :: cs, s =>
    match expectChar c s with
    | none => none
    | some rest => expectLit cs rest

/-- Consume exactly four digits (`%Y`). -/
def takeYear : List Char → Option (Nat × List Char)
  | a :: b :: c :: d :: rest =>
    if a.isDigit && b.isDigit && c.isDigit && d.isDigit then
      some (digitsToNat [a, b, c, d], rest)
    else none
  | _ => none

/-- Candidate matches, in alternation order, of `1[0-2]|0[1-9]|[1-9]` (`%m`). -/
def monthAlts : List Char → List (Nat × List Char)
  | [] => []
  | [a] => if '1' ≤ a && a ≤ '9' then [(a.toNat - '0'.toNat, [])] else []
  | a :: b :: rest =>
    (if a = '1' && '0' ≤ b && b ≤ '2' then [(digitsToNat [a, b], rest)] else
      if a = '0' && '1' ≤ b && b ≤ '9' then [(digitsToNat [a, b], rest)] else []) ++
    (if '1' ≤ a && a ≤ '9' then [(a.toNat - '0'.toNat, b :: rest)] else [])

/-- Candidate matches, in alternation order, of `3[01]|[12]\d|0[1-9]|[1-9]` (`%d`). -/
def dayAlts : List Char → List (Nat × List Char)
  | [] => []
  | [a] => if '1' ≤ a && a ≤ '9' then [(a.toNat - '0'.toNat, [])] else []
  | a :: b :: rest =>
    (if a = '3' && ('0' ≤ b && b ≤ '1') then [(digitsToNat [a, b], rest)] else
      if ('1' ≤ a && a ≤ '2') && b.isDigit then [(digitsToNat [a, b], rest)] else
        if a = '0' && '1' ≤ b && b ≤ '9' then [(digitsToNat [a, b], rest)] else []) ++
    (if '1' ≤ a && a ≤ '9' then [(a.toNat - '0'.toNat, b :: rest)] else [])

/-- Candidate matches, in alternation order, of `2[0-3]|[0-1]\d|\d` (`%H`). -/
def hourAlts : List Char → List (Nat × List Char)
  | [] => []
  | [a] => if a.isDigit then [(a.toNat - '0'.toNat, [])] else []
  | a :: b :: rest =>
    (if a = '2' && ('0' ≤ b && b ≤ '3') then [(digitsToNat [a, b], rest)] else
      if ('0' ≤ a && a ≤ '1') && b.isDigit then [(digitsToNat [a, b], rest)] else []) ++
    (if a.isDigit then [(a.toNat - '0'.toNat, b :: rest)] else [])

/-- Candidate matches, in alternation order, of `[0-5]\d|\d` (`%M`, `%S`). -/
def minSecAlts : List Char → List (Nat × List Char)
  | [] => []
  | [a] => if a.isDigit then [(a.toNat - '0'.toNat, [])] else []
  | a :: b :: rest =>
    (if ('0' ≤ a && a ≤ '5') && b.isDigit then [(digitsToNat [a, b], rest)] else []) ++
    (if a.isDigit then [(a.toNat - '0'.toNat, b :: rest)] else [])

/-- Candidate matches, longest first, of `[0-9]{1,6}` (`%f`); the value is the
digit run right-padded with zeros to six digits (microseconds). -/
def fracAlts (s : List Char) : List (Nat × List Char) :=
  (List.range 6).filterMap (fun i =>
    let k := 6 - i
    let ds := s.take k
    if ds.length = k && ds.all Char.isDigit then
      some (digitsToNat ds * 10 ^ (6 - k), s.drop k)
    else none)

/-- Backtracking over regex alternatives: try each candidate in order against
the continuation. -/
def tryCands {α : Type} (cands : List (Nat × List Char)) (k : Nat → List Char → Option α) :
    Option α :=
  match cands with
  | [] => none
  | (v, rest) :: more =>
    match k v rest with
    | some r => some r
    | none => tryCands more k

/-- Whether a year is a leap year (Gregorian, as in `datetime`). -/
def isLeapYear (y : Nat) : Bool :=
  y % 4 = 0 && (y % 100 ≠ 0 || y % 400 = 0)

/-- Days in a month, as validated by the `datetime` constructor. -/
def daysInMonth (y m : Nat) : Nat :=
  if m = 2 then (if isLeapYear y then 29 else 28)
  else if m = 4 || m = 6 || m = 9 || m = 11 then 30
  else 31

/-- `datetime.datetime.strptime(s, "%Y-%m-%dT%H:%M:%S.%f" + suffix)` followed
by the `datetime` constructor's range validation. -/
def strptimeYmdHMSf (suffix : List Char) (s : List Char) : Option PyDateTime := do
  let (y, s) ← takeYear s
  let s ← expectChar '-' s
  tryCands (monthAlts s) fun m s => do
    let s ← expectChar '-' s
    tryCands (dayAlts s) fun d s => do
      let s ← expectChar 'T' s
      tryCands (hourAlts s) fun hh s => do
        let s ← expectChar ':' s
        tryCands (minSecAlts s) fun mi s => do
          let s ← expectChar ':' s
          tryCands (minSecAlts s) fun ss s => do
            let s ← expectChar '.' s
            tryCands (fracAlts s) fun us s => do
              let s ← expectLit suffix s
              if s = [] && 1 ≤ y && 1 ≤ d && d ≤ daysInMonth y m then
                some ⟨y, m, d, hh, mi, ss, us⟩
              else none

/-- `date_from_utc_string`: try the `+00:00` spelling first, then the `Z`
spelling; `none` models the uncaught `ValueError` when both fail. -/
def date_from_utc_string (s : PyStr) : Option PyDateTime :=
  match strptimeYmdHMSf "+00:00".toList s with
  | some d => some d
  | none => strptimeYmdHMSf "Z".toList s

/-! ### The index ordering

Both `download` and `upload` sort the record list in place with
`fileindex.sort(key=lambda a: (a[COLUMN_FILENAME].casefold(), a[COLUMN_FILEDATE]))`.
Python's `list.sort` is a stable sort, ascending in the lexicographic order of
the key tuples, where strings compare lexicographically by code point.  It is
modelled by a stable insertion sort over the boolean total preorder `keyLe`
(any two stable sorts for the same total preorder agree).  `casefold` is
modelled on its ASCII fragment (`A`-`Z` map to `a`-`z`); checksums and the
repository's file names are ASCII.  Note that Python raises `IndexError` when
sorting a record with fewer than three fields (`a[2]`); such records never
occur in a published index, and the model totalises the key with `getD`. -/

def pyCasefoldChar (c : Char) : Char :=
  if 'A' ≤ c && c ≤ 'Z' then Char.ofNat (c.toNat + 32) else c

/-- The sort key of line 192/309: `(a[COLUMN_FILENAME].casefold(), a[COLUMN_FILEDATE])`. -/
def sortKey (r : Record) : PyStr × PyStr :=
  ((r.getD COLUMN_FILENAME []).map pyCasefoldChar, r.getD COLUMN_FILEDATE [])

/-- Strict lexicographic comparison of Python strings (by code point). -/
def fieldLt : PyStr → PyStr → Bool
  | _, [] => false
  | [], _ :: _ => true
  | a :: as, b :: bs => if a = b then fieldLt as bs else decide (a < b)

/-- Strict lexicographic comparison of key tuples. -/
def keyLt (k1 k2 : PyStr × PyStr) : Bool :=
  fieldLt k1.1 k2.1 || (decide (k1.1 = k2.1) && fieldLt k1.2 k2.2)

/-- Non-strict key comparison used by the model sort. -/
def keyLe (r s : Record) : Bool :=
  keyLt (sortKey r) (sortKey s) || decide (sortKey r = sortKey s)

/-- Stable insertion of a record after all records with a key not above its
own. -/
def insertSorted (r : Record) : List Record → List Record
  | [] => [r]
  | s :: rest => if keyLe s r then s :: insertSorted r rest else r :: s :: rest

/-- The model of `fileindex.sort(key=...)`: a stable sort by `sortKey`. -/
def sortIndex (fi : List Record) : List Record :=
  fi.foldl (fun acc r => insertSorted r acc) []

/-! ### `collections.Counter` and the filename disambiguation of `download` -/

/-- Adding one key occurrence to a counter dictionary. -/
def counterAdd : List (PyStr × Nat) → PyStr → List (PyStr × Nat)
  | [], k => [(k, 1)]
  | (q, n) :: rest, k =>
    if q = k then (q, n + 1) :: rest else (q, n) :: counterAdd rest k

/-- `collections.Counter(keys)`. -/
def counterOf (ks : List PyStr) : List (PyStr × Nat) :=
  ks.foldl counterAdd []

/-- Counter lookup; a missing key yields `0`, as for `Counter`. -/
def counterGet : List (PyStr × Nat) → PyStr → Nat
  | [], _ => 0
  | (q, n) :: rest, k => if q = k then n else counterGet rest k

def recordChecksum (r : Record) : PyStr := r.getD COLUMN_CHECKSUM []

def recordName (r : Record) : PyStr := r.getD COLUMN_FILENAME []

/-- Line 202/121: `fileindex_item[COLUMN_FILEDATE] if len(fileindex_item) > COLUMN_FILEDATE else ""`. -/
def recordDateOrEmpty (r : Record) : PyStr :=
  if COLUMN_FILEDATE < r.length then r.getD COLUMN_FILEDATE [] else []

/-- Line 231: `filedate if filedate else DEFAULT_FILE_DATE_UTC_STRING`. -/
def effectiveDateString (d : PyStr) : PyStr :=
  if d.isEmpty then DEFAULT_FILE_DATE_UTC_STRING else d

/-- Line 188: `filenames = [checksum_filename[1] for checksum_filename in fileindex]`,
then line 194: `filenames_counter = Counter(filenames)` (computed over the
complete record list, before any record is processed). -/
def downloadCounter (fi : List Record) : List (PyStr × Nat) :=
  counterOf (fi.map (fun checksum_filename => checksum_filename.getD 1 []))

/-- Lines 220-226: the local filename is the logical filename when its count
in the counter is exactly one, and otherwise the logical filename with the
checksum appended after a dot. -/
def localFilenameFor (counter : List (PyStr × Nat)) (r : Record) : PyStr :=
  if counterGet counter (recordName r) = 1 then recordName r
  else recordName r ++ '.' :: recordChecksum r

/-! ### The download loop

File-system and network effects are oracles: `cached c` models
`os.path.isfile(os.path.join(hashalgo_dir, c))` and `fetchOk c` models the
success of `gh_asset_download` for the blob named `c`.  A record is skipped
(`continue`, with a logged error) when its blob is neither cached nor
fetchable; otherwise the blob is copied to the disambiguated local path and
`set_filedate` stamps it with the parsed date, so one materialized record is
the appended 4-field entry `[checksum, filename, filedate, local_filename]`
of line 234 together with the timestamp set on the local file.  An
unparsable non-empty date raises `ValueError` out of the whole loop
(`date_from_utc_string` at line 231), modelled as `none`. -/

structure DownloadEnv where
  cached : PyStr → Bool
  fetchOk : PyStr → Bool

def recordAvailable (env : DownloadEnv) (r : Record) : Bool :=
  env.cached (recordChecksum r) || env.fetchOk (recordChecksum r)

structure Materialized where
  entry : Record
  mtime : PyDateTime
deriving DecidableEq, Repr

/-- The per-record body of the download loop (lines 199-234). -/
def downloadLoop (env : DownloadEnv) (counter : List (PyStr × Nat)) :
    List Record → Option (List Materialized)
  | [] => some []
  | r :: rs =>
    if recordAvailable env r then
      match date_from_utc_string (effectiveDateString (recordDateOrEmpty r)) with
      | none => none
      | some dt =>
        (downloadLoop env counter rs).map
          (fun res =>
            ⟨[recordChecksum r, recordName r, recordDateOrEmpty r, localFilenameFor counter r],
              dt⟩ :: res)
    else downloadLoop env counter rs

/-- The download pass over a decoded index `fi`: the counter is built from the
unsorted list (line 188), the list is then sorted (line 192), and the loop
processes the sorted records.  `some res` holds the materialized entries in
order; `none` models the uncaught `ValueError` of an unparsable date. -/
def downloadRun (env : DownloadEnv) (fi : List Record) : Option (List Materialized) :=
  downloadLoop env (downloadCounter fi) (sortIndex fi)

/-- Line 237: the index written back to the algorithm directory is the full
sorted record list, independent of which blobs could be fetched. -/
def downloadWrittenCsv (fi : List Record) : List Char :=
  write_fileindex_csv (sortIndex fi)

/-- Lines 238-239: the local markdown rendering is produced from
`fileindex_with_local_filename`, i.e. only the materialized entries. -/
def downloadLocalMd (repo halgo : PyStr) (res : List Materialized) : List Char :=
  write_fileindex_md true repo halgo (res.map Materialized.entry)

/-- The materialized entry of one available record, with the timestamp that
`set_filedate` stamps on the local file. -/
def materializeRecord (counter : List (PyStr × Nat)) (r : Record) : Materialized :=
  ⟨[recordChecksum r, recordName r, recordDateOrEmpty r, localFilenameFor counter r],
    (date_from_utc_string (effectiveDateString (recordDateOrEmpty r))).getD
      ⟨1970, 1, 1, 0, 0, 0, 0⟩⟩

/-! ### The upload pass

Remote effects are modelled as an action trace in program order.  The inputs
are the asset list that `get_assets` would report (name and state per asset),
the previously published decoded index (empty when fetching it failed, the
"new release" path of lines 267-270), and the incoming files, where each
incoming file carries the filename, its content digest (`hashcmd`), and its
modification date rendered by `date_to_utc_string`. -/

structure RemoteAsset where
  name : PyStr
  state : PyStr
deriving DecidableEq, Repr

structure IncomingFile where
  filename : PyStr
  checksum : PyStr
  filedate : PyStr
deriving DecidableEq, Repr

def uploadedStateStr : PyStr := "uploaded".toList

inductive RemoteAction where
  | deleteAsset (name : PyStr)
  | createRelease
  | uploadIndexFile (name : PyStr)
  | uploadBlob (checksum : PyStr)
  | editRelease (body : List Char)
deriving DecidableEq, Repr

/-- Line 274-276: `get_assets` is consulted only when the previous index was
non-empty (a falsy `fileindex` short-circuits to `[]`). -/
def queriedAssets (assets : List RemoteAsset) (fi : List Record) : List RemoteAsset :=
  if fi.isEmpty then [] else assets

/-- Lines 277-283, collecting branch: the names of queried assets in state
`uploaded`. -/
def uploadedHashes (assets : List RemoteAsset) (fi : List Record) : List PyStr :=
  (queriedAssets assets fi).filterMap
    (fun a => if a.state = uploadedStateStr then some a.name else none)

/-- Lines 277-283, deleting branch: every queried asset not in state
`uploaded` is deleted. -/
def cleanupDeleteActions (assets : List RemoteAsset) (fi : List Record) : List RemoteAction :=
  (queriedAssets assets fi).filterMap
    (fun a => if a.state = uploadedStateStr then none else some (RemoteAction.deleteAsset a.name))

/-- The `existingItems` predicate of lines 298-299. -/
def matchesIncoming (f : IncomingFile) (it : Record) : Bool :=
  decide (it.getD COLUMN_CHECKSUM [] = f.checksum) &&
    decide (it.getD COLUMN_FILENAME [] = f.filename)

/-- One iteration of the loop of lines 293-302: append a
`[checksum, filename, filedate]` record when no existing record matches the
`(checksum, filename)` pair. -/
def uploadMergeStep (acc : List Record) (f : IncomingFile) : List Record :=
  if (acc.filter (matchesIncoming f)).isEmpty then
    acc ++ [[f.checksum, f.filename, f.filedate]]
  else acc

/-- Lines 293-302: fold the incoming files into the decoded index. -/
def uploadMerge (fi : List Record) (incoming : List IncomingFile) : List Record :=
  incoming.foldl uploadMergeStep fi

/-- Line 309: the merged index, sorted; this is what lines 310-312 serialize. -/
def uploadFinalIndex (fi : List Record) (incoming : List IncomingFile) : List Record :=
  sortIndex (uploadMerge fi incoming)

/-- The markdown text uploaded as `(hashalgo).md` (line 312, list layout,
without local filenames). -/
def uploadMdText (repo halgo : PyStr) (fi : List Record) (incoming : List IncomingFile) :
    List Char :=
  write_fileindex_md false repo halgo (uploadFinalIndex fi incoming)

def sizeNote : List Char :=
  ("Since the release description is > 125000 characters, " ++
    "the corresponding markdown file is instead pushed into the repository.").toList

/-- The pointer notice of line 343. -/
def pointerNote (repo halgo : PyStr) : List Char :=
  "See [".toList ++ halgo ++ ".md](https://github.com/".toList ++ repo ++
    "/blob/main/".toList ++ halgo ++ "/".toList ++ halgo ++ ".md)\n\n_".toList ++
    sizeNote ++ "_".toList

/-- Lines 341-345: the release description is the rendering, unless it is
longer than 125000 characters, in which case it is the pointer notice. -/
def releaseNotesOf (repo halgo : PyStr) (md : List Char) : List Char :=
  if 125000 < md.length then pointerNote repo halgo else md

/-- Line 344: `logging.warning` fires exactly in the oversize case. -/
def uploadWarned (md : List Char) : Bool :=
  decide (125000 < md.length)

/-- Lines 328-335: upload each blob of the final index whose checksum is not
among the uploaded asset names. -/
def blobUploadActions (assets : List RemoteAsset) (fi : List Record)
    (incoming : List IncomingFile) : List RemoteAction :=
  (uploadFinalIndex fi incoming).filterMap
    (fun r =>
      if recordChecksum r ∈ uploadedHashes assets fi then none
      else some (RemoteAction.uploadBlob (recordChecksum r)))

/-- The remote actions of one upload pass, in program order: partial-asset
deletions (lines 277-283), release creation (317), deletion of the old index
and rendering (320-321), upload of the new index and rendering (324-325),
blob uploads (328-335), and the release-description edit (346). -/
def uploadTrace (assets : List RemoteAsset) (fi : List Record)
    (incoming : List IncomingFile) (repo halgo : PyStr) : List RemoteAction :=
  cleanupDeleteActions assets fi ++
    [RemoteAction.createRelease] ++
    [RemoteAction.deleteAsset (halgo ++ ".csv".toList),
      RemoteAction.deleteAsset (halgo ++ ".md".toList)] ++
    [RemoteAction.uploadIndexFile (halgo ++ ".csv".toList),
      RemoteAction.uploadIndexFile (halgo ++ ".md".toList)] ++
    blobUploadActions assets fi incoming ++
    [RemoteAction.editRelease (releaseNotesOf repo halgo (uploadMdText repo halgo fi incoming))]

/-- Asset names in state `uploaded`, without the emptiness guard; used to
describe the remote state a completed upload leaves behind. -/
def uploadedNamesOf (assets : List RemoteAsset) : List PyStr :=
  assets.filterMap (fun a => if a.state = uploadedStateStr then some a.name else none)

/-! ### Validity predicates for the codec claims -/

/-- A field that survives the line discipline of the CSV: no separator, no
line terminator, no carriage return (text mode would translate a lone `\r`
on read-back). -/
abbrev cleanField (f : PyStr) : Prop :=
  ';' ∉ f ∧ '\n' ∉ f ∧ '\r' ∉ f

/-- The field does not end in a character that `rstrip` would remove. -/
def noTrailBool (f : PyStr) : Bool :=
  match f.getLast? with
  | none => true
  | some c => !isPySpace c

/-- A well-formed persisted record with its date present: exactly the three
persisted columns, clean fields, and a date field that `rstrip` leaves
intact at the end of its line. -/
abbrev validRecord3 (r : Record) : Prop :=
  r.length = 3 ∧ (∀ f ∈ r, cleanField f) ∧ noTrailBool (r.getD COLUMN_FILEDATE []) = true

/-- A line of index text with all three columns present and no trailing
whitespace. -/
abbrev lineValid3 (l : List Char) : Prop :=
  rstrip l = l ∧ (splitOn ';' l).length = 3

/-! ### Concrete example data used to exercise the theorems -/

/-- Example download environment: nothing is cached, and the blob named `bad`
fails to download. -/
def exEnv : DownloadEnv :=
  ⟨fun _ => false, fun c => decide (c ≠ "bad".toList)⟩

/-- Example decoded index: two revisions of `a.txt` (one of them
unfetchable) and a dateless record for `b.txt`. -/
def exIndex : List Record :=
  [["bad".toList, "a.txt".toList, "2021-02-03T04:05:06.7Z".toList],
    ["good".toList, "a.txt".toList, "2020-05-06T07:08:09.1Z".toList],
    ["g2".toList, "b.txt".toList, []]]

/-- The entries `downloadRun exEnv exIndex` materializes. -/
def exRes : List Materialized :=
  [⟨["good".toList, "a.txt".toList, "2020-05-06T07:08:09.1Z".toList, "a.txt.good".toList],
      ⟨2020, 5, 6, 7, 8, 9, 100000⟩⟩,
    ⟨["g2".toList, "b.txt".toList, [], "b.txt".toList],
      ⟨2020, 1, 1, 12, 0, 0, 0⟩⟩]

/-- Example remote assets: one fully uploaded blob and one partial one. -/
def exAssets : List RemoteAsset :=
  [⟨"h1".toList, "uploaded".toList⟩, ⟨"h2".toList, "partial".toList⟩]

/-- Example previously published index. -/
def exPrev : List Record :=
  [["h1".toList, "a.txt".toList, "2020-01-01T00:00:00.0Z".toList]]

/-- Example incoming file. -/
def exIncoming : List IncomingFile :=
  [⟨"b.txt".toList, "c2".toList, "2021-01-01T00:00:00.0Z".toList⟩]

/-! ### Lemmas about the split/join machinery -/

theorem splitOn_ne_nil (sep : Char) (s : List Char) : splitOn sep s ≠ [] := by
  induction s with
  | nil => simp [splitOn]
  | cons c rest ih =>
    by_cases h : c = sep
    · simp [splitOn, h]
    · simp only [splitOn, if_neg h]
      cases hs : splitOn sep rest with
      | nil => exact absurd hs ih
      | cons f fs => simp

theorem splitOn_cons_sep (sep c : Char) (rest : List Char) (hc : c = sep) :
    splitOn sep (c :: rest) = [] :: splitOn sep rest := by
  simp [splitOn, hc]

theorem splitOn_cons_ne (sep c : Char) (rest f : List Char) (fs : List (List Char))
    (hc : c ≠ sep) (hs : splitOn sep rest = f :: fs) :
    splitOn sep (c :: rest) = (c :: f) :: fs := by
  simp only [splitOn, if_neg hc, hs]

theorem joinSep_cons_of_ne_nil (sep : Char) (f : List Char) (fs : List (List Char))
    (h : fs ≠ []) : joinSep sep (f :: fs) = f ++ sep :: joinSep sep fs := by
  cases fs with
  | nil => exact absurd rfl h
  | cons g gs => rfl

theorem joinSep_splitOn (sep : Char) (s : List Char) : joinSep sep (splitOn sep s) = s := by
  induction s with
  | nil => simp [splitOn, joinSep]
  | cons c rest ih =>
    by_cases h : c = sep
    · subst h
      have hsp : splitOn c (c :: rest) = [] :: splitOn c rest := by
        simp [splitOn]
      rw [hsp, joinSep_cons_of_ne_nil _ _ _ (splitOn_ne_nil c rest), ih]
      simp
    · simp only [splitOn, if_neg h]
      cases hs : splitOn sep rest with
      | nil => exact absurd hs (splitOn_ne_nil sep rest)
      | cons f fs =>
        rw [hs] at ih
        cases fs with
        | nil =>
          simp only [joinSep] at ih ⊢
          rw [ih]
        | cons g gs =>
          rw [joinSep_cons_of_ne_nil _ _ _ (by simp)] at ih ⊢
          simp only [List.cons_append, ih]

theorem splitOn_of_not_mem (sep : Char) (f : List Char) (h : sep ∉ f) :
    splitOn sep f = [f] := by
  induction f with
  | nil => rfl
  | cons c cs ih =>
    have hc : c ≠ sep := fun hcs => h (hcs ▸ List.mem_cons_self c cs)
    have hcs : sep ∉ cs := fun hm => h (List.mem_cons_of_mem c hm)
    simp only [splitOn, if_neg hc, ih hcs]

theorem splitOn_append_sep (sep : Char) (b t : List Char) (h : sep ∉ b) :
    splitOn sep (b ++ sep :: t) = b :: splitOn sep t := by
  induction b with
  | nil => simp [splitOn]
  | cons c bs ih =>
    have hc : c ≠ sep := fun hcs => h (hcs ▸ List.mem_cons_self c bs)
    have hbs : sep ∉ bs := fun hm => h (List.mem_cons_of_mem c hm)
    simp only [List.cons_append, splitOn, if_neg hc]
    rw [List.append_eq, ih hbs]

theorem splitOn_joinSep_clean (sep : Char) (fs : List (List Char)) (hne : fs ≠ [])
    (h : ∀ f ∈ fs, sep ∉ f) : splitOn sep (joinSep sep fs) = fs := by
  induction fs with
  | nil => exact absurd rfl hne
  | cons f gs ih =>
    cases gs with
    | nil =>
      simp only [joinSep]
      exact splitOn_of_not_mem sep f (h f (List.mem_cons_self f []))
    | cons g gs2 =>
      rw [joinSep_cons_of_ne_nil _ _ _ (by simp)]
      rw [splitOn_append_sep sep f _ (h f (List.mem_cons_self f _))]
      rw [ih (by simp) (fun x hx => h x (List.mem_cons_of_mem f hx))]

theorem splitOn_cons_ne_singleton (sep c : Char) (rest : List Char) :
    splitOn sep (c :: rest) ≠ [[]] := by
  by_cases h : c = sep
  · simp only [splitOn, if_pos h]
    intro hcon
    have : splitOn sep rest = [] := by simpa using hcon
    exact splitOn_ne_nil sep rest this
  · simp only [splitOn, if_neg h]
    cases hs : splitOn sep rest with
    | nil => exact absurd hs (splitOn_ne_nil sep rest)
    | cons f fs => simp

theorem rstrip_eq_self (l : List Char) (h : noTrailBool l = true) : rstrip l = l := by
  unfold rstrip
  cases hr : l.reverse with
  | nil =>
    have : l = [] := List.reverse_eq_nil_iff.mp hr
    subst this
    rfl
  | cons c cs =>
    have hlast : l.getLast? = some c := by
      rw [← List.head?_reverse, hr]
      rfl
    have hc : isPySpace c = false := by
      unfold noTrailBool at h
      rw [hlast] at h
      simpa using h
    rw [List.dropWhile_cons, hc]
    simp only [Bool.false_eq_true, if_false]
    rw [← hr, List.reverse_reverse]

/-! ### Lemmas about lines -/

theorem pyLines_nil : pyLines [] = [] := by
  simp [pyLines, splitOn]

theorem pyLines_cons_newline (b t : List Char) (hb : '\n' ∉ b) :
    pyLines (b ++ '\n' :: t) = b :: pyLines t := by
  unfold pyLines
  rw [splitOn_append_sep '\n' b t hb]
  cases hs : splitOn '\n' t with
  | nil => exact absurd hs (splitOn_ne_nil '\n' t)
  | cons p ps =>
    by_cases hl : (p :: ps).getLast? = some []
    · rw [if_pos (by rw [List.getLast?_cons_cons]; exact hl), if_pos hl]
      rfl
    · rw [if_neg (by rw [List.getLast?_cons_cons]; exact hl), if_neg hl]

theorem splitOn_getLast_nil (t : List Char) (h : t.getLast? = some '\n') :
    ∃ qs, splitOn '\n' t = qs ++ [[]] := by
  induction t with
  | nil => simp at h
  | cons c rest ih =>
    cases rest with
    | nil =>
      have hc : c = '\n' := by simpa using h
      subst hc
      exact ⟨[[]], rfl⟩
    | cons d rest2 =>
      have h2 : (d :: rest2).getLast? = some '\n' := by
        rwa [List.getLast?_cons_cons] at h
      obtain ⟨qs, hqs⟩ := ih h2
      by_cases hc : c = '\n'
      · refine ⟨[] :: qs, ?_⟩
        rw [splitOn_cons_sep '\n' c _ hc, hqs]
        simp
      · cases qs with
        | nil =>
          exact absurd (by simpa using hqs) (splitOn_cons_ne_singleton '\n' d rest2)
        | cons q qs2 =>
          refine ⟨(c :: q) :: qs2, ?_⟩
          rw [splitOn_cons_ne '\n' c _ q (qs2 ++ [[]]) hc (by simpa using hqs)]
          simp

theorem flatten_map_newline (qs : List (List Char)) :
    (qs.map (fun l => l ++ ['\n'])).flatten = joinSep '\n' (qs ++ [[]]) := by
  induction qs with
  | nil => rfl
  | cons q qs2 ih =>
    rw [List.map_cons, List.flatten_cons, ih, List.cons_append,
      joinSep_cons_of_ne_nil '\n' q (qs2 ++ [[]]) (by simp)]
    simp

theorem pyLines_of_concat (t : List Char) (qs : List (List Char))
    (h : splitOn '\n' t = qs ++ [[]]) : pyLines t = qs := by
  unfold pyLines
  rw [h, if_pos (List.getLast?_concat qs), List.dropLast_concat]

/-! ### Lemmas about the record codec -/

theorem parseLine_length (l : List Char) : 2 ≤ (parseLine l).length := by
  unfold parseLine
  have h1 : 1 ≤ (splitOn ';' (rstrip l)).length :=
    Nat.one_le_iff_ne_zero.mpr
      (fun hz => splitOn_ne_nil ';' (rstrip l) (List.eq_nil_of_length_eq_zero hz))
  by_cases h : (splitOn ';' (rstrip l)).length ≤ COLUMN_FILEDATE
  · rw [if_pos h]
    simpa using h1
  · rw [if_neg h]
    unfold COLUMN_FILEDATE at h
    omega

theorem encodeLine_parseLine (l : List Char) (h : lineValid3 l) :
    encodeLine (parseLine l) = l ++ ['\n'] := by
  obtain ⟨hr, hlen⟩ := h
  have hpl : parseLine l = splitOn ';' l := by
    unfold parseLine
    rw [hr, if_neg (by rw [hlen]; unfold COLUMN_FILEDATE; omega)]
  obtain ⟨a, b, c, habc⟩ := List.length_eq_three.mp hlen
  rw [hpl, habc]
  have hj : joinSep ';' [a, b, c] = l := by
    rw [← habc, joinSep_splitOn]
  unfold encodeLine
  rw [if_pos (by simp [COLUMN_FILEDATE])]
  simp only [COLUMN_CHECKSUM, COLUMN_FILENAME, COLUMN_FILEDATE, List.getD]
  simpa using congrArg (fun x => x ++ ['\n']) hj

theorem parseLine_of_validRecord (r : Record) (h : validRecord3 r) :
    parseLine (joinSep ';' r) = r ∧ encodeLine r = joinSep ';' r ++ ['\n'] := by
  obtain ⟨hlen, hclean, htrail⟩ := h
  obtain ⟨a, b, c, habc⟩ := List.length_eq_three.mp hlen
  subst habc
  have hsplit : splitOn ';' (joinSep ';' [a, b, c]) = [a, b, c] :=
    splitOn_joinSep_clean ';' [a, b, c] (by simp)
      (fun f hf => ((hclean f hf).1))
  constructor
  · unfold parseLine
    have hnt : noTrailBool (joinSep ';' [a, b, c]) = true := by
      have hj : joinSep ';' [a, b, c] = a ++ ';' :: (b ++ ';' :: c) := by
        simp [joinSep]
      rw [hj]
      unfold noTrailBool
      rcases List.eq_nil_or_concat c with hc | ⟨c0, x, hc⟩
      all_goals (try rw [List.concat_eq_append] at hc)
      · subst hc
        rw [show a ++ ';' :: (b ++ [';']) = (a ++ ';' :: b) ++ [';'] by simp,
          List.getLast?_concat]
        rfl
      · have hcd : noTrailBool c = true := by
          simpa [COLUMN_FILEDATE, List.getD] using htrail
        subst hc
        rw [show a ++ ';' :: (b ++ ';' :: (c0 ++ [x])) = (a ++ ';' :: b ++ ';' :: c0) ++ [x] by
          simp, List.getLast?_concat]
        unfold noTrailBool at hcd
        rwa [List.getLast?_concat] at hcd
    rw [rstrip_eq_self _ hnt, hsplit,
      if_neg (by unfold COLUMN_FILEDATE; omega)]
  · unfold encodeLine
    rw [if_pos (by simp [COLUMN_FILEDATE])]
    simp [COLUMN_CHECKSUM, COLUMN_FILENAME, COLUMN_FILEDATE, List.getD, joinSep]

theorem not_mem_joinSep (sep x : Char) (fs : List (List Char)) (hx : x ≠ sep)
    (hc : ∀ f ∈ fs, x ∉ f) : x ∉ joinSep sep fs := by
  induction fs with
  | nil => simp [joinSep]
  | cons f gs ih =>
    cases gs with
    | nil => exact hc f (List.mem_cons_self f [])
    | cons g gs2 =>
      rw [joinSep_cons_of_ne_nil sep f (g :: gs2) (by simp)]
      intro hmem
      rcases List.mem_append.mp hmem with hmem | hmem
      · exact hc f (List.mem_cons_self f _) hmem
      · rcases List.mem_cons.mp hmem with hmem | hmem
        · exact hx hmem
        · exact ih (fun f2 hf2 => hc f2 (List.mem_cons_of_mem f hf2)) hmem

theorem pyLines_flatten (bs : List (List Char)) (h : ∀ b ∈ bs, '\n' ∉ b) :
    pyLines ((bs.map (fun l => l ++ ['\n'])).flatten) = bs := by
  induction bs with
  | nil => exact pyLines_nil
  | cons b bs2 ih =>
    rw [List.map_cons, List.flatten_cons,
      show (b ++ ['\n']) ++ (bs2.map (fun l => l ++ ['\n'])).flatten =
        b ++ '\n' :: (bs2.map (fun l => l ++ ['\n'])).flatten by simp,
      pyLines_cons_newline b _ (h b (List.mem_cons_self b bs2)),
      ih (fun b2 hb2 => h b2 (List.mem_cons_of_mem b hb2))]

theorem read_write_eq (fi : List Record) (h : ∀ r ∈ fi, validRecord3 r) :
    read_fileindex_csv (write_fileindex_csv fi) = fi := by
  unfold write_fileindex_csv read_fileindex_csv
  have hmap : fi.map encodeLine = (fi.map (fun r => joinSep ';' r)).map (fun l => l ++ ['\n']) := by
    rw [List.map_map]
    exact List.map_congr_left (fun r hr => (parseLine_of_validRecord r (h r hr)).2)
  rw [hmap, pyLines_flatten _ ?clean, List.map_map]
  case clean =>
    intro b hb
    obtain ⟨r, hr, hrb⟩ := List.mem_map.mp hb
    rw [← hrb]
    exact not_mem_joinSep ';' '\n' r (by decide)
      (fun f hf => ((h r hr).2.1 f hf).2.1)
  rw [show (parseLine ∘ fun r => joinSep ';' r) = (fun r => parseLine (joinSep ';' r)) from rfl]
  rw [List.map_congr_left (fun r hr => (parseLine_of_validRecord r (h r hr)).1)]
  exact List.map_id fi

theorem write_read_eq (t : List Char) (h1 : ∀ l ∈ pyLines t, lineValid3 l)
    (h2 : t = [] ∨ t.getLast? = some '\n') :
    write_fileindex_csv (read_fileindex_csv t) = t := by
  rcases h2 with rfl | h2
  · simp [read_fileindex_csv, write_fileindex_csv, pyLines_nil]
  · obtain ⟨qs, hqs⟩ := splitOn_getLast_nil t h2
    have hpl := pyLines_of_concat t qs hqs
    unfold read_fileindex_csv write_fileindex_csv
    rw [hpl, List.map_map]
    have hcong : qs.map (encodeLine ∘ parseLine) = qs.map (fun l => l ++ ['\n']) :=
      List.map_congr_left
        (fun l hl => encodeLine_parseLine l (h1 l (by rw [hpl]; exact hl)))
    rw [hcong, flatten_map_newline, ← hqs, joinSep_splitOn]

/-! ### Lemmas about the sort -/

theorem fieldLt_nil_right (a : PyStr) : fieldLt a [] = false := by
  cases a <;> rfl

theorem fieldLt_irrefl (a : PyStr) : fieldLt a a = false := by
  induction a with
  | nil => rfl
  | cons c cs ih => simp [fieldLt, ih]

theorem fieldLt_trans :
    ∀ a b c : PyStr, fieldLt a b = true → fieldLt b c = true → fieldLt a c = true := by
  intro a
  induction a with
  | nil =>
    intro b c _ hbc
    cases c with
    | nil => rw [fieldLt_nil_right] at hbc; cases hbc
    | cons z zs => rfl
  | cons x xs ih =>
    intro b c hab hbc
    cases b with
    | nil => rw [fieldLt_nil_right] at hab; cases hab
    | cons y ys =>
      cases c with
      | nil => rw [fieldLt_nil_right] at hbc; cases hbc
      | cons z zs =>
        simp only [fieldLt] at hab hbc ⊢
        by_cases hxy : x = y
        · subst hxy
          rw [if_pos rfl] at hab
          by_cases hyz : x = z
          · subst hyz
            rw [if_pos rfl] at hbc
            rw [if_pos rfl]
            exact ih ys zs hab hbc
          · rw [if_neg hyz] at hbc
            rw [if_neg hyz]
            exact hbc
        · rw [if_neg hxy] at hab
          by_cases hyz : y = z
          · subst hyz
            rw [if_neg hxy]
            exact hab
          · rw [if_neg hyz] at hbc
            have hlt : x < z :=
              lt_trans (of_decide_eq_true hab) (of_decide_eq_true hbc)
            rw [if_neg (ne_of_lt hlt)]
            exact decide_eq_true hlt

theorem fieldLt_tri (a b : PyStr) : fieldLt a b = true ∨ a = b ∨ fieldLt b a = true := by
  induction a generalizing b with
  | nil =>
    cases b with
    | nil => exact Or.inr (Or.inl rfl)
    | cons y ys => exact Or.inl rfl
  | cons x xs ih =>
    cases b with
    | nil => exact Or.inr (Or.inr rfl)
    | cons y ys =>
      by_cases hxy : x = y
      · subst hxy
        rcases ih ys with h | h | h
        · exact Or.inl (by simp [fieldLt, h])
        · exact Or.inr (Or.inl (by rw [h]))
        · exact Or.inr (Or.inr (by simp [fieldLt, h]))
      · rcases lt_or_gt_of_ne hxy with h | h
        · exact Or.inl (by simp [fieldLt, if_neg hxy, h])
        · refine Or.inr (Or.inr ?_)
          have hyx : y ≠ x := fun hc => hxy hc.symm
          simp [fieldLt, if_neg hyx, h]

theorem keyLt_trans (k1 k2 k3 : PyStr × PyStr) (h12 : keyLt k1 k2 = true)
    (h23 : keyLt k2 k3 = true) : keyLt k1 k3 = true := by
  simp only [keyLt, Bool.or_eq_true, Bool.and_eq_true, decide_eq_true_eq] at h12 h23 ⊢
  rcases h12 with h12 | ⟨he12, hd12⟩
  · rcases h23 with h23 | ⟨he23, hd23⟩
    · exact Or.inl (fieldLt_trans _ _ _ h12 h23)
    · exact Or.inl (he23 ▸ h12)
  · rcases h23 with h23 | ⟨he23, hd23⟩
    · exact Or.inl (he12 ▸ h23)
    · exact Or.inr ⟨he12.trans he23, fieldLt_trans _ _ _ hd12 hd23⟩

theorem keyLt_tri (k1 k2 : PyStr × PyStr) :
    keyLt k1 k2 = true ∨ k1 = k2 ∨ keyLt k2 k1 = true := by
  rcases fieldLt_tri k1.1 k2.1 with h | h | h
  · exact Or.inl (by simp [keyLt, h])
  · rcases fieldLt_tri k1.2 k2.2 with h2 | h2 | h2
    · exact Or.inl (by simp [keyLt, h, h2])
    · exact Or.inr (Or.inl (Prod.ext h h2))
    · exact Or.inr (Or.inr (by simp [keyLt, h.symm, h2]))
  · exact Or.inr (Or.inr (by simp [keyLt, h]))

theorem keyLe_trans (r s t : Record) (hrs : keyLe r s = true) (hst : keyLe s t = true) :
    keyLe r t = true := by
  simp only [keyLe, Bool.or_eq_true, decide_eq_true_eq] at hrs hst ⊢
  rcases hrs with hrs | hrs
  · rcases hst with hst | hst
    · exact Or.inl (keyLt_trans _ _ _ hrs hst)
    · exact Or.inl (hst ▸ hrs)
  · rcases hst with hst | hst
    · exact Or.inl (hrs ▸ hst)
    · exact Or.inr (hrs.trans hst)

theorem keyLe_total (r s : Record) : keyLe r s = true ∨ keyLe s r = true := by
  simp only [keyLe, Bool.or_eq_true, decide_eq_true_eq]
  rcases keyLt_tri (sortKey r) (sortKey s) with h | h | h
  · exact Or.inl (Or.inl h)
  · exact Or.inl (Or.inr h)
  · exact Or.inr (Or.inl h)

theorem insertSorted_perm (r : Record) (l : List Record) :
    (insertSorted r l).Perm (r :: l) := by
  induction l with
  | nil => exact List.Perm.refl _
  | cons s rest ih =>
    unfold insertSorted
    by_cases h : keyLe s r = true
    · rw [if_pos h]
      exact (ih.cons s).trans (List.Perm.swap r s rest)
    · rw [if_neg h]

theorem foldl_insert_perm (l : List Record) :
    ∀ acc : List Record,
      (l.foldl (fun a r => insertSorted r a) acc).Perm (acc ++ l) := by
  induction l with
  | nil => intro acc; simp
  | cons r rest ih =>
    intro acc
    have step := ih (insertSorted r acc)
    have h1 : (insertSorted r acc ++ rest).Perm ((r :: acc) ++ rest) :=
      (insertSorted_perm r acc).append_right rest
    exact (step.trans h1).trans (List.perm_middle.symm)

theorem sortIndex_perm (fi : List Record) : (sortIndex fi).Perm fi := by
  simpa using foldl_insert_perm fi []

theorem mem_sortIndex (r : Record) (fi : List Record) : r ∈ sortIndex fi ↔ r ∈ fi :=
  (sortIndex_perm fi).mem_iff

theorem insertSorted_pairwise (r : Record) (l : List Record)
    (hl : l.Pairwise (fun a b => keyLe a b = true)) :
    (insertSorted r l).Pairwise (fun a b => keyLe a b = true) := by
  induction l with
  | nil => simp [insertSorted]
  | cons s rest ih =>
    rcases List.pairwise_cons.mp hl with ⟨hs, hrest⟩
    unfold insertSorted
    by_cases h : keyLe s r = true
    · rw [if_pos h]
      refine List.pairwise_cons.mpr ⟨?_, ih hrest⟩
      intro x hx
      rcases List.mem_cons.mp ((insertSorted_perm r rest).mem_iff.mp hx) with hx | hx
      · exact hx ▸ h
      · exact hs x hx
    · rw [if_neg h]
      have hrs : keyLe r s = true := (keyLe_total r s).resolve_right (fun hc => h hc)
      refine List.pairwise_cons.mpr ⟨?_, hl⟩
      intro x hx
      rcases List.mem_cons.mp hx with hx | hx
      · exact hx ▸ hrs
      · exact keyLe_trans r s x hrs (hs x hx)

theorem foldl_insert_pairwise (l : List Record) :
    ∀ acc : List Record, acc.Pairwise (fun a b => keyLe a b = true) →
      (l.foldl (fun a r => insertSorted r a) acc).Pairwise (fun a b => keyLe a b = true) := by
  induction l with
  | nil => intro acc hacc; exact hacc
  | cons r rest ih => intro acc hacc; exact ih _ (insertSorted_pairwise r acc hacc)

theorem sortIndex_pairwise (fi : List Record) :
    (sortIndex fi).Pairwise (fun a b => keyLe a b = true) :=
  foldl_insert_pairwise fi [] (List.Pairwise.nil)

theorem insertSorted_all_le (r : Record) (l : List Record)
    (h : ∀ s ∈ l, keyLe s r = true) : insertSorted r l = l ++ [r] := by
  induction l with
  | nil => rfl
  | cons s rest ih =>
    unfold insertSorted
    rw [if_pos (h s (List.mem_cons_self s rest)),
      ih (fun x hx => h x (List.mem_cons_of_mem s hx))]
    rfl

theorem foldl_insert_of_pairwise (l : List Record) :
    ∀ acc : List Record, (acc ++ l).Pairwise (fun a b => keyLe a b = true) →
      l.foldl (fun a r => insertSorted r a) acc = acc ++ l := by
  induction l with
  | nil => intro acc _; simp
  | cons r rest ih =>
    intro acc hacc
    have hle : ∀ s ∈ acc, keyLe s r = true := by
      intro s hs
      exact (List.pairwise_append.mp hacc).2.2 s hs r (List.mem_cons_self r rest)
    have hstep : insertSorted r acc = acc ++ [r] := insertSorted_all_le r acc hle
    have hacc2 : ((acc ++ [r]) ++ rest).Pairwise (fun a b => keyLe a b = true) := by
      rwa [← List.append_cons]
    calc (r :: rest).foldl (fun a x => insertSorted x a) acc
        = rest.foldl (fun a x => insertSorted x a) (insertSorted r acc) := rfl
      _ = rest.foldl (fun a x => insertSorted x a) (acc ++ [r]) := by rw [hstep]
      _ = (acc ++ [r]) ++ rest := ih (acc ++ [r]) hacc2
      _ = acc ++ r :: rest := by rw [← List.append_cons]

theorem sortIndex_of_pairwise (l : List Record)
    (h : l.Pairwise (fun a b => keyLe a b = true)) : sortIndex l = l :=
  foldl_insert_of_pairwise l [] (by simpa)

theorem sortIndex_idem (fi : List Record) : sortIndex (sortIndex fi) = sortIndex fi :=
  sortIndex_of_pairwise (sortIndex fi) (sortIndex_pairwise fi)

/-! ### Lemmas about `Counter` -/

theorem counterGet_counterAdd (m : List (PyStr × Nat)) (q k : PyStr) :
    counterGet (counterAdd m q) k = counterGet m k + (if q = k then 1 else 0) := by
  induction m with
  | nil =>
    by_cases h : q = k
    · simp [counterAdd, counterGet, if_pos h]
    · simp [counterAdd, counterGet, if_neg h]
  | cons pn rest ih =>
    obtain ⟨p, n⟩ := pn
    by_cases hpq : p = q
    · subst hpq
      by_cases hpk : p = k
      · simp [counterAdd, counterGet, if_pos hpk]
      · simp [counterAdd, counterGet, if_pos rfl, if_neg hpk]
    · by_cases hpk : p = k
      · have hqk : ¬ q = k := fun hc => hpq (hpk.trans hc.symm)
        simp [counterAdd, counterGet, if_neg hpq, if_pos hpk, if_neg hqk]
      · simp [counterAdd, counterGet, if_neg hpq, if_neg hpk, ih]

theorem counterGet_foldl (ks : List PyStr) :
    ∀ m : List (PyStr × Nat), ∀ k : PyStr,
      counterGet (ks.foldl counterAdd m) k =
        counterGet m k + (ks.filter (fun x => decide (x = k))).length := by
  induction ks with
  | nil => intro m k; simp
  | cons q rest ih =>
    intro m k
    rw [List.foldl_cons, ih (counterAdd m q) k, counterGet_counterAdd]
    by_cases h : q = k
    · simp [List.filter_cons, h]
      omega
    · simp [List.filter_cons, h]

theorem counterGet_counterOf (ks : List PyStr) (k : PyStr) :
    counterGet (counterOf ks) k = (ks.filter (fun x => decide (x = k))).length := by
  unfold counterOf
  rw [counterGet_foldl ks [] k]
  simp [counterGet]

/-- The counter built by `download` indeed counts, per filename, the records
of the complete decoded index carrying that filename. -/
theorem downloadCounter_count (fi : List Record) (k : PyStr) :
    counterGet (downloadCounter fi) k =
      (fi.filter (fun x => decide (recordName x = k))).length := by
  unfold downloadCounter
  rw [counterGet_counterOf, List.filter_map, List.length_map]
  rfl

/-! ### Lemmas about the download loop -/

theorem downloadLoop_some (env : DownloadEnv) (counter : List (PyStr × Nat)) :
    ∀ (l : List Record) (res : List Materialized),
      downloadLoop env counter l = some res →
      res = (l.filter (fun r => recordAvailable env r)).map (materializeRecord counter) ∧
      ∀ r ∈ l, recordAvailable env r = true →
        (date_from_utc_string (effectiveDateString (recordDateOrEmpty r))).isSome = true := by
  intro l
  induction l with
  | nil =>
    intro res h
    simp only [downloadLoop, Option.some.injEq] at h
    exact ⟨by simp [← h], by intro r hr; cases hr⟩
  | cons r rs ih =>
    intro res h
    simp only [downloadLoop] at h
    by_cases ha : recordAvailable env r = true
    · rw [if_pos ha] at h
      cases hdt : date_from_utc_string (effectiveDateString (recordDateOrEmpty r)) with
      | none => rw [hdt] at h; cases h
      | some dt =>
        rw [hdt] at h
        obtain ⟨res2, hres2, hcons⟩ := Option.map_eq_some'.mp h
        obtain ⟨hres2eq, hdates⟩ := ih res2 hres2
        constructor
        · rw [List.filter_cons, if_pos ha, List.map_cons, ← hres2eq, ← hcons]
          unfold materializeRecord
          rw [hdt]
          rfl
        · intro x hx hax
          rcases List.mem_cons.mp hx with rfl | hx
          · rw [hdt]; rfl
          · exact hdates x hx hax
    · rw [if_neg ha] at h
      obtain ⟨hreseq, hdates⟩ := ih res h
      constructor
      · rw [List.filter_cons, if_neg ha]
        exact hreseq
      · intro x hx hax
        rcases List.mem_cons.mp hx with rfl | hx
        · exact absurd hax ha
        · exact hdates x hx hax

theorem downloadLoop_total (env : DownloadEnv) (counter : List (PyStr × Nat)) :
    ∀ l : List Record,
      (∀ r ∈ l, recordAvailable env r = true →
        (date_from_utc_string (effectiveDateString (recordDateOrEmpty r))).isSome = true) →
      downloadLoop env counter l =
        some ((l.filter (fun r => recordAvailable env r)).map (materializeRecord counter)) := by
  intro l
  induction l with
  | nil => intro _; rfl
  | cons r rs ih =>
    intro h
    simp only [downloadLoop]
    by_cases ha : recordAvailable env r = true
    · rw [if_pos ha]
      obtain ⟨dt, hdt⟩ :=
        Option.isSome_iff_exists.mp (h r (List.mem_cons_self r rs) ha)
      rw [hdt, ih (fun x hx => h x (List.mem_cons_of_mem r hx)), List.filter_cons, if_pos ha,
        List.map_cons]
      unfold materializeRecord
      rw [hdt]
      rfl
    · rw [if_neg ha, List.filter_cons, if_neg ha]
      exact ih (fun x hx => h x (List.mem_cons_of_mem r hx))

/-! ### Lemmas about the upload merge -/

theorem uploadMerge_extends (fi : List Record) (incoming : List IncomingFile) :
    ∃ app, uploadMerge fi incoming = fi ++ app := by
  unfold uploadMerge
  induction incoming generalizing fi with
  | nil => exact ⟨[], by simp⟩
  | cons g rest ih =>
    rw [List.foldl_cons]
    obtain ⟨app, happ⟩ := ih (uploadMergeStep fi g)
    by_cases hc : (fi.filter (matchesIncoming g)).isEmpty = true
    · have hstep : uploadMergeStep fi g = fi ++ [[g.checksum, g.filename, g.filedate]] := by
        unfold uploadMergeStep
        rw [if_pos hc]
      refine ⟨[[g.checksum, g.filename, g.filedate]] ++ app, ?_⟩
      rw [happ, hstep, List.append_assoc]
    · have hstep : uploadMergeStep fi g = fi := by
        unfold uploadMergeStep
        rw [if_neg hc]
      refine ⟨app, ?_⟩
      rw [happ, hstep]

theorem mem_uploadMerge_of_mem (fi : List Record) (incoming : List IncomingFile)
    (r : Record) (h : r ∈ fi) : r ∈ uploadMerge fi incoming := by
  obtain ⟨app, happ⟩ := uploadMerge_extends fi incoming
  rw [happ]
  exact List.mem_append_left app h

theorem uploadMerge_has_incoming (incoming : List IncomingFile) :
    ∀ (fi : List Record) (f : IncomingFile), f ∈ incoming →
      ∃ it ∈ uploadMerge fi incoming, matchesIncoming f it = true := by
  induction incoming with
  | nil => intro fi f hf; cases hf
  | cons g rest ih =>
    intro fi f hf
    have hfold : uploadMerge fi (g :: rest) = uploadMerge (uploadMergeStep fi g) rest := rfl
    rcases List.mem_cons.mp hf with rfl | hf
    · by_cases hc : (fi.filter (matchesIncoming f)).isEmpty = true
      · refine ⟨[f.checksum, f.filename, f.filedate], ?_, ?_⟩
        · rw [hfold]
          refine mem_uploadMerge_of_mem _ rest _ ?_
          unfold uploadMergeStep
          rw [if_pos hc]
          simp
        · unfold matchesIncoming
          simp [COLUMN_CHECKSUM, COLUMN_FILENAME, List.getD]
      · obtain ⟨it, hit⟩ :=
          List.exists_mem_of_ne_nil (fi.filter (matchesIncoming f))
            (fun hnil => hc (by rw [hnil]; rfl))
        have hitf : it ∈ fi ∧ matchesIncoming f it = true := List.mem_filter.mp hit
        refine ⟨it, ?_, hitf.2⟩
        rw [hfold]
        refine mem_uploadMerge_of_mem _ rest _ ?_
        unfold uploadMergeStep
        by_cases hc2 : (fi.filter (matchesIncoming f)).isEmpty = true
        · rw [if_pos hc2]; exact List.mem_append_left _ hitf.1
        · rw [if_neg hc2]; exact hitf.1
    · exact hfold ▸ ih (uploadMergeStep fi g) f hf

theorem uploadMerge_of_all_present (incoming : List IncomingFile) (fi : List Record)
    (h : ∀ f ∈ incoming, ∃ it ∈ fi, matchesIncoming f it = true) :
    uploadMerge fi incoming = fi := by
  induction incoming with
  | nil => rfl
  | cons g rest ih =>
    have hfold : uploadMerge fi (g :: rest) = uploadMerge (uploadMergeStep fi g) rest := rfl
    obtain ⟨it, hitfi, hitm⟩ := h g (List.mem_cons_self g rest)
    have hstep : uploadMergeStep fi g = fi := by
      unfold uploadMergeStep
      rw [if_neg ?ne]
      case ne =>
        intro hemp
        have : it ∈ fi.filter (matchesIncoming g) := List.mem_filter.mpr ⟨hitfi, hitm⟩
        rw [List.isEmpty_iff.mp hemp] at this
        cases this
    rw [hfold, hstep]
    exact ih (fun f hf => h f (List.mem_cons_of_mem g hf))

theorem uploadMerge_nil_iff (fi : List Record) (incoming : List IncomingFile)
    (h : uploadMerge fi incoming = []) : fi = [] ∧ incoming = [] := by
  obtain ⟨app, happ⟩ := uploadMerge_extends fi incoming
  have h2 : fi ++ app = [] := by rw [← happ]; exact h
  have hfi : fi = [] := (List.append_eq_nil.mp h2).1
  refine ⟨hfi, ?_⟩
  subst hfi
  cases incoming with
  | nil => rfl
  | cons g rest =>
    exfalso
    obtain ⟨it, hit, _⟩ :=
      uploadMerge_has_incoming (g :: rest) [] g (List.mem_cons_self g rest)
    rw [h] at hit
    cases hit

/-! ### Lemmas about the upload trace -/

theorem uploadBlob_not_mem_cleanup (assets : List RemoteAsset) (fi : List Record)
    (c : PyStr) : RemoteAction.uploadBlob c ∉ cleanupDeleteActions assets fi := by
  intro h
  obtain ⟨a, _, hsome⟩ := List.mem_filterMap.mp h
  by_cases hs : a.state = uploadedStateStr
  · rw [if_pos hs] at hsome
    cases hsome
  · rw [if_neg hs] at hsome
    simp at hsome

theorem mem_blobUploadActions (assets : List RemoteAsset) (fi : List Record)
    (inc : List IncomingFile) (c : PyStr) :
    RemoteAction.uploadBlob c ∈ blobUploadActions assets fi inc ↔
      ∃ r ∈ uploadFinalIndex fi inc,
        recordChecksum r = c ∧ recordChecksum r ∉ uploadedHashes assets fi := by
  unfold blobUploadActions
  rw [List.mem_filterMap]
  constructor
  · rintro ⟨r, hr, hsome⟩
    by_cases hm : recordChecksum r ∈ uploadedHashes assets fi
    · rw [if_pos hm] at hsome
      cases hsome
    · rw [if_neg hm] at hsome
      have heq : recordChecksum r = c := by
        have := Option.some.inj hsome
        simpa using this
      exact ⟨r, hr, heq, hm⟩
  · rintro ⟨r, hr, rfl, hm⟩
    exact ⟨r, hr, by rw [if_neg hm]⟩

theorem uploadBlob_mem_trace (assets : List RemoteAsset) (fi : List Record)
    (inc : List IncomingFile) (repo halgo : PyStr) (c : PyStr) :
    RemoteAction.uploadBlob c ∈ uploadTrace assets fi inc repo halgo ↔
      RemoteAction.uploadBlob c ∈ blobUploadActions assets fi inc := by
  unfold uploadTrace
  simp [List.mem_append, uploadBlob_not_mem_cleanup assets fi c]

/-! ### The claims -/

/-- C1: the upload path is append-only with respect to the index: every
record of the previously published index is still a member of the sorted
index written and uploaded at the end of the run (even when no incoming file
corresponds to it), and the merge phase only ever appends records to the
previous index before re-sorting. -/
theorem upload_index_append_only (fi : List Record) (incoming : List IncomingFile) :
    (∃ appended, uploadMerge fi incoming = fi ++ appended) ∧
    ∀ r ∈ fi, r ∈ uploadFinalIndex fi incoming := by
  refine ⟨uploadMerge_extends fi incoming, ?_⟩
  intro r hr
  exact (mem_sortIndex r (uploadMerge fi incoming)).mpr
    (mem_uploadMerge_of_mem fi incoming r hr)

/-- Witness for C1 at a concrete previous index and incoming file. -/
theorem upload_index_append_only_witness :
    (∃ appended, uploadMerge exPrev exIncoming = exPrev ++ appended) ∧
    ["h1".toList, "a.txt".toList, "2020-01-01T00:00:00.0Z".toList] ∈
      uploadFinalIndex exPrev exIncoming :=
  ⟨(upload_index_append_only exPrev exIncoming).1,
    (upload_index_append_only exPrev exIncoming).2 _ (by decide)⟩

/-- C2: the filename disambiguation of `download` gives a record the plain
logical name exactly when that logical name occurs in one record of the
complete decoded record set, and the name suffixed with `.` and the checksum
otherwise; the counter is the group count over the complete record set, and
every materialized entry of a download run carries the so-resolved local
name. -/
theorem download_disambiguation (fi : List Record) (r : Record) (_hr : r ∈ fi) :
    (localFilenameFor (downloadCounter fi) r =
      (if (fi.filter (fun x => decide (recordName x = recordName r))).length = 1
        then recordName r
        else recordName r ++ '.' :: recordChecksum r)) ∧
    ∀ (env : DownloadEnv) (res : List Materialized),
      downloadRun env fi = some res →
      ∀ m ∈ res,
        m.entry.getD COLUMN_LOCAL_FILENAME [] =
          (if (fi.filter (fun x =>
                decide (recordName x = m.entry.getD COLUMN_FILENAME []))).length = 1
            then m.entry.getD COLUMN_FILENAME []
            else m.entry.getD COLUMN_FILENAME [] ++ '.' :: m.entry.getD COLUMN_CHECKSUM []) := by
  constructor
  · unfold localFilenameFor
    rw [downloadCounter_count]
  · intro env res hrun m hm
    obtain ⟨hres, _⟩ :=
      downloadLoop_some env (downloadCounter fi) (sortIndex fi) res hrun
    rw [hres] at hm
    obtain ⟨r2, _, hmr⟩ := List.mem_map.mp hm
    rw [← hmr]
    have he0 : (materializeRecord (downloadCounter fi) r2).entry.getD COLUMN_CHECKSUM [] =
        recordChecksum r2 := rfl
    have he1 : (materializeRecord (downloadCounter fi) r2).entry.getD COLUMN_FILENAME [] =
        recordName r2 := rfl
    have he3 : (materializeRecord (downloadCounter fi) r2).entry.getD COLUMN_LOCAL_FILENAME [] =
        localFilenameFor (downloadCounter fi) r2 := rfl
    rw [he0, he1, he3]
    unfold localFilenameFor
    rw [downloadCounter_count]

/-- Witness for C2: in `exIndex` the name `a.txt` occurs twice (once in an
unfetchable record), so the materialized copy of the fetchable revision gets
the checksum-suffixed local name. -/
theorem download_disambiguation_witness :
    (localFilenameFor (downloadCounter exIndex)
        ["good".toList, "a.txt".toList, "2020-05-06T07:08:09.1Z".toList] =
      (if (exIndex.filter (fun x => decide (recordName x = recordName
            ["good".toList, "a.txt".toList, "2020-05-06T07:08:09.1Z".toList]))).length = 1
        then recordName ["good".toList, "a.txt".toList, "2020-05-06T07:08:09.1Z".toList]
        else recordName ["good".toList, "a.txt".toList, "2020-05-06T07:08:09.1Z".toList] ++
          '.' :: recordChecksum
            ["good".toList, "a.txt".toList, "2020-05-06T07:08:09.1Z".toList])) ∧
    (exRes.get ⟨0, by decide⟩).entry.getD COLUMN_LOCAL_FILENAME [] =
      (if (exIndex.filter (fun x =>
            decide (recordName x = (exRes.get ⟨0, by decide⟩).entry.getD COLUMN_FILENAME []))).length = 1
        then (exRes.get ⟨0, by decide⟩).entry.getD COLUMN_FILENAME []
        else (exRes.get ⟨0, by decide⟩).entry.getD COLUMN_FILENAME [] ++
          '.' :: (exRes.get ⟨0, by decide⟩).entry.getD COLUMN_CHECKSUM []) :=
  ⟨(download_disambiguation exIndex _ (by decide)).1,
    (download_disambiguation exIndex
        ["good".toList, "a.txt".toList, "2020-05-06T07:08:09.1Z".toList] (by decide)).2
      exEnv exRes (by decide) _ (by decide)⟩

/-- C3: decoding the text encoded from any sequence of well-formed records
with dates present yields the same sequence. -/
theorem csv_decode_encode_roundtrip (fi : List Record)
    (h : ∀ r ∈ fi, validRecord3 r) :
    read_fileindex_csv (write_fileindex_csv fi) = fi :=
  read_write_eq fi h

/-- Witness for C3 at a concrete two-record index. -/
theorem csv_decode_encode_roundtrip_witness :
    read_fileindex_csv (write_fileindex_csv
        [["c1".toList, "a.txt".toList, "2020-01-01T00:00:00.0Z".toList],
          ["c2".toList, "b 2.txt".toList, "2021-01-01T00:00:00.0Z".toList]]) =
      [["c1".toList, "a.txt".toList, "2020-01-01T00:00:00.0Z".toList],
        ["c2".toList, "b 2.txt".toList, "2021-01-01T00:00:00.0Z".toList]] :=
  csv_decode_encode_roundtrip _ (by decide)

/-- Counterexample to C4 as stated: `"a;b\n"` is a valid index text (the
date field is optional in the durable format), yet decoding and re-encoding
it appends an empty date field, producing `"a;b;\n"`. -/
theorem csv_reencode_dateless_counterexample :
    write_fileindex_csv (read_fileindex_csv "a;b\n".toList) = "a;b;\n".toList ∧
    write_fileindex_csv (read_fileindex_csv "a;b\n".toList) ≠ "a;b\n".toList := by
  decide

/-- C4 (amended): byte-stability of re-serialization holds for index texts
whose every line carries all three fields (re-encoding a two-field line
appends a `;`), and serialization is deterministic: re-sorting an already
sorted index and re-encoding it is byte-identical. -/
theorem csv_reencode_byte_stable (t : List Char) (fi : List Record)
    (h1 : ∀ l ∈ pyLines t, lineValid3 l)
    (h2 : t = [] ∨ t.getLast? = some '\n') :
    write_fileindex_csv (read_fileindex_csv t) = t ∧
    write_fileindex_csv (sortIndex (sortIndex fi)) = write_fileindex_csv (sortIndex fi) :=
  ⟨write_read_eq t h1 h2, by rw [sortIndex_idem]⟩

/-- Witness for the amended C4 at a concrete three-field text. -/
theorem csv_reencode_byte_stable_witness :
    write_fileindex_csv (read_fileindex_csv "a;b;c\nd;e;\n".toList) = "a;b;c\nd;e;\n".toList ∧
    write_fileindex_csv (sortIndex (sortIndex exPrev)) = write_fileindex_csv (sortIndex exPrev) :=
  csv_reencode_byte_stable "a;b;c\nd;e;\n".toList exPrev (by decide) (by decide)

/-- C5: in the upload trace, every queried asset not in state `uploaded` is
deleted in a phase that precedes every blob upload; no blob whose checksum is
among the uploaded asset names is uploaded; if every checksum of the final
index is already uploaded, no blob is transferred at all; and a re-run over
the index produced by a completed run, against a remote store that reports
all of its checksums as uploaded, performs zero blob transfers. -/
theorem upload_transfer_hygiene (assets : List RemoteAsset) (fi : List Record)
    (incoming : List IncomingFile) (repo halgo : PyStr) :
    (∃ pre post,
      uploadTrace assets fi incoming repo halgo = pre ++ post ∧
      (∀ a ∈ queriedAssets assets fi, a.state ≠ uploadedStateStr →
        RemoteAction.deleteAsset a.name ∈ pre) ∧
      (∀ act ∈ pre, ∀ c, act ≠ RemoteAction.uploadBlob c) ∧
      (∀ c, RemoteAction.uploadBlob c ∈ uploadTrace assets fi incoming repo halgo →
        RemoteAction.uploadBlob c ∈ post)) ∧
    (∀ c, RemoteAction.uploadBlob c ∈ uploadTrace assets fi incoming repo halgo →
      c ∉ uploadedHashes assets fi) ∧
    ((∀ r ∈ uploadFinalIndex fi incoming, recordChecksum r ∈ uploadedHashes assets fi) →
      ∀ c, RemoteAction.uploadBlob c ∉ uploadTrace assets fi incoming repo halgo) ∧
    (∀ assets2 : List RemoteAsset,
      (∀ r ∈ uploadFinalIndex fi incoming, recordChecksum r ∈ uploadedNamesOf assets2) →
      ∀ c, RemoteAction.uploadBlob c ∉
        uploadTrace assets2 (uploadFinalIndex fi incoming) incoming repo halgo) := by
  refine ⟨?_, ?_, ?_, ?_⟩
  · refine ⟨cleanupDeleteActions assets fi ++ [RemoteAction.createRelease] ++
      [RemoteAction.deleteAsset (halgo ++ ".csv".toList),
        RemoteAction.deleteAsset (halgo ++ ".md".toList)] ++
      [RemoteAction.uploadIndexFile (halgo ++ ".csv".toList),
        RemoteAction.uploadIndexFile (halgo ++ ".md".toList)],
      blobUploadActions assets fi incoming ++
        [RemoteAction.editRelease
          (releaseNotesOf repo halgo (uploadMdText repo halgo fi incoming))],
      ?_, ?_, ?_, ?_⟩
    · unfold uploadTrace
      simp [List.append_assoc]
    · intro a ha hs
      have hmem : RemoteAction.deleteAsset a.name ∈ cleanupDeleteActions assets fi :=
        List.mem_filterMap.mpr ⟨a, ha, by rw [if_neg hs]⟩
      exact List.mem_append_left _ (List.mem_append_left _ (List.mem_append_left _ hmem))
    · intro act hact c heq
      subst heq
      rcases List.mem_append.mp hact with hact | hact
      · rcases List.mem_append.mp hact with hact | hact
        · rcases List.mem_append.mp hact with hact | hact
          · exact uploadBlob_not_mem_cleanup assets fi c hact
          · simp at hact
        · simp at hact
      · simp at hact
    · intro c hc
      exact List.mem_append_left _
        ((uploadBlob_mem_trace assets fi incoming repo halgo c).mp hc)
  · intro c hc
    obtain ⟨r, _, heq, hm⟩ := (mem_blobUploadActions assets fi incoming c).mp
      ((uploadBlob_mem_trace assets fi incoming repo halgo c).mp hc)
    exact heq ▸ hm
  · intro hall c hc
    obtain ⟨r, hr, _, hm⟩ := (mem_blobUploadActions assets fi incoming c).mp
      ((uploadBlob_mem_trace assets fi incoming repo halgo c).mp hc)
    exact hm (hall r hr)
  · intro assets2 hall c hc
    obtain ⟨r, hr, _, hm⟩ :=
      (mem_blobUploadActions assets2 (uploadFinalIndex fi incoming) incoming c).mp
        ((uploadBlob_mem_trace assets2 (uploadFinalIndex fi incoming) incoming repo halgo c).mp hc)
    by_cases hnil : uploadFinalIndex fi incoming = []
    · have hm0 : uploadMerge fi incoming = [] := by
        have hperm := sortIndex_perm (uploadMerge fi incoming)
        unfold uploadFinalIndex at hnil
        rw [hnil] at hperm
        exact (hperm.symm.eq_nil)
      obtain ⟨hfi0, hinc0⟩ := uploadMerge_nil_iff fi incoming hm0
      subst hinc0
      rw [hnil] at hr
      have hempty : uploadFinalIndex [] [] = [] := rfl
      rw [hempty] at hr
      cases hr
    · have hpresent : ∀ f ∈ incoming,
          ∃ it ∈ uploadFinalIndex fi incoming, matchesIncoming f it = true := by
        intro f hf
        obtain ⟨it, hit, hmm⟩ := uploadMerge_has_incoming incoming fi f hf
        exact ⟨it, (mem_sortIndex it _).mpr hit, hmm⟩
      have hmerge : uploadMerge (uploadFinalIndex fi incoming) incoming =
          uploadFinalIndex fi incoming :=
        uploadMerge_of_all_present incoming _ hpresent
      have hr2 : r ∈ uploadFinalIndex fi incoming := by
        have hidem : uploadFinalIndex (uploadFinalIndex fi incoming) incoming =
            uploadFinalIndex fi incoming := by
          unfold uploadFinalIndex
          rw [show uploadMerge (sortIndex (uploadMerge fi incoming)) incoming =
              sortIndex (uploadMerge fi incoming) from hmerge, sortIndex_idem]
        rw [← hidem]
        exact hr
      apply hm
      unfold uploadedHashes queriedAssets
      rw [if_neg (by simpa [List.isEmpty_iff] using hnil)]
      exact hall r hr2

/-- Witness for C5: with one uploaded blob `h1` backing the whole index and
an empty incoming directory, the re-run uploads nothing for `h1`. -/
theorem upload_transfer_hygiene_witness :
    RemoteAction.uploadBlob "h1".toList ∉
      uploadTrace exAssets exPrev [] "r/r".toList "SHA256".toList :=
  (upload_transfer_hygiene exAssets exPrev [] "r/r".toList "SHA256".toList).2.2.1
    (by decide) "h1".toList

/-- C6: the timestamp stamped on every materialized file is the parse of the
record's own date field when it is non-empty, and the parse of the fixed
default string `2020-01-01T12:00:00.0Z` (namely noon of 2020-01-01 UTC) when
the record has no date; no clock enters the computation. -/
theorem download_mtime_from_index (env : DownloadEnv) (fi : List Record)
    (res : List Materialized) (h : downloadRun env fi = some res) :
    date_from_utc_string DEFAULT_FILE_DATE_UTC_STRING =
      some ⟨2020, 1, 1, 12, 0, 0, 0⟩ ∧
    ∀ m ∈ res,
      (m.entry.getD COLUMN_FILEDATE [] ≠ [] →
        date_from_utc_string (m.entry.getD COLUMN_FILEDATE []) = some m.mtime) ∧
      (m.entry.getD COLUMN_FILEDATE [] = [] → m.mtime = ⟨2020, 1, 1, 12, 0, 0, 0⟩) := by
  have hdef : date_from_utc_string DEFAULT_FILE_DATE_UTC_STRING =
      some ⟨2020, 1, 1, 12, 0, 0, 0⟩ := by decide
  refine ⟨hdef, ?_⟩
  intro m hm
  obtain ⟨hres, hdates⟩ := downloadLoop_some env (downloadCounter fi) (sortIndex fi) res h
  rw [hres] at hm
  obtain ⟨r2, hr2, hmr⟩ := List.mem_map.mp hm
  have hr2mem : r2 ∈ sortIndex fi := List.mem_of_mem_filter hr2
  have hr2av : recordAvailable env r2 = true := List.of_mem_filter hr2
  obtain ⟨dt, hdt⟩ := Option.isSome_iff_exists.mp (hdates r2 hr2mem hr2av)
  have hentry2 : (materializeRecord (downloadCounter fi) r2).entry.getD COLUMN_FILEDATE [] =
      recordDateOrEmpty r2 := rfl
  have hmtime : (materializeRecord (downloadCounter fi) r2).mtime = dt := by
    simp [materializeRecord, hdt]
  rw [← hmr, hentry2, hmtime]
  constructor
  · intro hne
    have heff : effectiveDateString (recordDateOrEmpty r2) = recordDateOrEmpty r2 := by
      unfold effectiveDateString
      rw [if_neg (by simpa [List.isEmpty_iff] using hne)]
    rw [← heff]
    exact hdt
  · intro heq
    have heff : effectiveDateString (recordDateOrEmpty r2) = DEFAULT_FILE_DATE_UTC_STRING := by
      simp [effectiveDateString, heq]
    have hsome : some dt = some (⟨2020, 1, 1, 12, 0, 0, 0⟩ : PyDateTime) := by
      rw [← hdt, heff, hdef]
    exact Option.some.inj hsome

/-- Witness for C6 at the dateless record of the example run: its timestamp
is the fixed default. -/
theorem download_mtime_from_index_witness :
    date_from_utc_string DEFAULT_FILE_DATE_UTC_STRING =
      some ⟨2020, 1, 1, 12, 0, 0, 0⟩ ∧
    ((Materialized.mk ["g2".toList, "b.txt".toList, [], "b.txt".toList]
        ⟨2020, 1, 1, 12, 0, 0, 0⟩).entry.getD COLUMN_FILEDATE [] ≠ [] →
      date_from_utc_string ((Materialized.mk ["g2".toList, "b.txt".toList, [], "b.txt".toList]
        ⟨2020, 1, 1, 12, 0, 0, 0⟩).entry.getD COLUMN_FILEDATE []) =
        some (Materialized.mk ["g2".toList, "b.txt".toList, [], "b.txt".toList]
          ⟨2020, 1, 1, 12, 0, 0, 0⟩).mtime) ∧
    ((Materialized.mk ["g2".toList, "b.txt".toList, [], "b.txt".toList]
        ⟨2020, 1, 1, 12, 0, 0, 0⟩).entry.getD COLUMN_FILEDATE [] = [] →
      (Materialized.mk ["g2".toList, "b.txt".toList, [], "b.txt".toList]
        ⟨2020, 1, 1, 12, 0, 0, 0⟩).mtime = ⟨2020, 1, 1, 12, 0, 0, 0⟩) :=
  ⟨(download_mtime_from_index exEnv exIndex exRes (by decide)).1,
    (download_mtime_from_index exEnv exIndex exRes (by decide)).2 _ (by decide)⟩

/-- Counterexample to C7 as stated: `read_fileindex_csv` never fails.  A
one-field line, a four-field line, and a line with an unparsable date are
all returned as records (the one-field line merely gains an empty field);
no error of any kind is raised at decode time. -/
theorem decode_malformed_counterexample :
    read_fileindex_csv "justonefield\n".toList = [["justonefield".toList, []]] ∧
    read_fileindex_csv "a;b;c;d\n".toList =
      [["a".toList, "b".toList, "c".toList, "d".toList]] ∧
    read_fileindex_csv "a;b;not a date\n".toList =
      [["a".toList, "b".toList, "not a date".toList]] := by
  decide

/-- C7 (amended): decoding is total and lenient: it returns exactly one
record per input line whatever the field count, padding a record that lacks
the date column with one empty field (so every record has at least two
fields), and it performs no date validation at decode time (an unparsable
date only surfaces later, when `download` parses it to stamp the file). -/
theorem decode_total (t : List Char) :
    (read_fileindex_csv t).length = (pyLines t).length ∧
    ∀ r ∈ read_fileindex_csv t, 2 ≤ r.length := by
  refine ⟨by simp [read_fileindex_csv], ?_⟩
  intro r hr
  obtain ⟨l, _, hlr⟩ := List.mem_map.mp hr
  rw [← hlr]
  exact parseLine_length l

/-- Witness for the amended C7 on a malformed one-field line. -/
theorem decode_total_witness :
    (read_fileindex_csv "justafield\n".toList).length =
      (pyLines "justafield\n".toList).length ∧
    2 ≤ ["justafield".toList, ([] : PyStr)].length :=
  ⟨(decode_total "justafield\n".toList).1,
    (decode_total "justafield\n".toList).2 ["justafield".toList, []] (by decide)⟩

/-- C8: a fetch failure is non-fatal and local: whenever every record's
effective date parses, the download run succeeds for every pattern of cache
hits and fetch failures, materializing exactly the available records of the
sorted index, in order — unavailable records are skipped and the rest are
still processed. -/
theorem download_fetch_failure_skips (env : DownloadEnv) (fi : List Record)
    (h : ∀ r ∈ fi,
      (date_from_utc_string (effectiveDateString (recordDateOrEmpty r))).isSome = true) :
    downloadRun env fi =
      some (((sortIndex fi).filter (fun r => recordAvailable env r)).map
        (materializeRecord (downloadCounter fi))) := by
  unfold downloadRun
  exact downloadLoop_total env (downloadCounter fi) (sortIndex fi)
    (fun r hr _ => h r ((mem_sortIndex r fi).mp hr))

/-- Witness for C8: the example run, where the blob `bad` cannot be fetched,
still succeeds and materializes the other two records. -/
theorem download_fetch_failure_skips_witness :
    downloadRun exEnv exIndex =
      some (((sortIndex exIndex).filter (fun r => recordAvailable exEnv r)).map
        (materializeRecord (downloadCounter exIndex))) :=
  download_fetch_failure_skips exEnv exIndex (by decide)

/-- C9: the final action of the upload trace edits the release description;
the body is the short pointer notice exactly when the markdown rendering
exceeds 125000 characters (and then the warning fires), and the full
rendering otherwise (and then no warning fires). -/
theorem upload_release_notes_guard (assets : List RemoteAsset) (fi : List Record)
    (incoming : List IncomingFile) (repo halgo : PyStr) :
    (125000 < (uploadMdText repo halgo fi incoming).length →
      (uploadTrace assets fi incoming repo halgo).getLast? =
        some (RemoteAction.editRelease (pointerNote repo halgo)) ∧
      uploadWarned (uploadMdText repo halgo fi incoming) = true) ∧
    ((uploadMdText repo halgo fi incoming).length ≤ 125000 →
      (uploadTrace assets fi incoming repo halgo).getLast? =
        some (RemoteAction.editRelease (uploadMdText repo halgo fi incoming)) ∧
      uploadWarned (uploadMdText repo halgo fi incoming) = false) := by
  have hlast : (uploadTrace assets fi incoming repo halgo).getLast? =
      some (RemoteAction.editRelease
        (releaseNotesOf repo halgo (uploadMdText repo halgo fi incoming))) := by
    unfold uploadTrace
    exact List.getLast?_concat _
  constructor
  · intro hbig
    refine ⟨?_, decide_eq_true hbig⟩
    rw [hlast]
    unfold releaseNotesOf
    rw [if_pos hbig]
  · intro hsmall
    have hn : ¬ 125000 < (uploadMdText repo halgo fi incoming).length := not_lt.mpr hsmall
    refine ⟨?_, decide_eq_false hn⟩
    rw [hlast]
    unfold releaseNotesOf
    rw [if_neg hn]

set_option maxRecDepth 4000 in
/-- Witness for C9 on a small index whose rendering is far below the
ceiling. -/
theorem upload_release_notes_guard_witness :
    (uploadTrace exAssets exPrev exIncoming "r/r".toList "SHA256".toList).getLast? =
      some (RemoteAction.editRelease
        (uploadMdText "r/r".toList "SHA256".toList exPrev exIncoming)) ∧
    uploadWarned (uploadMdText "r/r".toList "SHA256".toList exPrev exIncoming) = false :=
  (upload_release_notes_guard exAssets exPrev exIncoming "r/r".toList "SHA256".toList).2
    (by decide)

/-- C10: after a successful download run the index written back is the full
sorted decoded record list — every decoded record is in it, fetch failures
included — while the local markdown rendering is produced from exactly the
materialized entries (the available records of the sorted index, with their
local names). -/
theorem download_writeback_vs_rendering (env : DownloadEnv) (fi : List Record)
    (res : List Materialized) (repo halgo : PyStr)
    (h : downloadRun env fi = some res) :
    (∀ r ∈ fi, r ∈ sortIndex fi) ∧
    downloadWrittenCsv fi = write_fileindex_csv (sortIndex fi) ∧
    res.map Materialized.entry =
      ((sortIndex fi).filter (fun r => recordAvailable env r)).map
        (fun r => [recordChecksum r, recordName r, recordDateOrEmpty r,
          localFilenameFor (downloadCounter fi) r]) ∧
    downloadLocalMd repo halgo res =
      write_fileindex_md true repo halgo (res.map Materialized.entry) := by
  refine ⟨fun r hr => (mem_sortIndex r fi).mpr hr, rfl, ?_, rfl⟩
  obtain ⟨hres, _⟩ := downloadLoop_some env (downloadCounter fi) (sortIndex fi) res h
  rw [hres, List.map_map]
  exact List.map_congr_left (fun r _ => rfl)

/-- Witness for C10: the unfetchable record of the example index is still a
member of the written-back index, and the rendered entries are exactly the
two materialized ones. -/
theorem download_writeback_vs_rendering_witness :
    ["bad".toList, "a.txt".toList, "2021-02-03T04:05:06.7Z".toList] ∈ sortIndex exIndex ∧
    exRes.map Materialized.entry =
      ((sortIndex exIndex).filter (fun r => recordAvailable exEnv r)).map
        (fun r => [recordChecksum r, recordName r, recordDateOrEmpty r,
          localFilenameFor (downloadCounter exIndex) r]) :=
  ⟨(download_writeback_vs_rendering exEnv exIndex exRes "r/r".toList "SHA256".toList
      (by decide)).1 _ (by decide),
    (download_writeback_vs_rendering exEnv exIndex exRes "r/r".toList "SHA256".toList
      (by decide)).2.2.1⟩
